import Mathlib

/-!
Verification of `hash_search.c` (TobiX/hash_search) against its
natural-language specification.

The development shallowly embeds the program:
* bytes are `Nat` below 256, byte strings are `List Nat`;
* the digest algorithm (OpenSSL EVP, external to the repository) is an
  abstract function `H : List Nat → List Nat` from the hashed data to the
  digest bytes — the program only clones contexts so that each candidate's
  digest is the digest of `input ++ candidate`;
* `get_value` (hex-prefix parsing), the bit-granular matcher at lines
  185–187, the `snprintf("%lli", …)` candidate encoder, the search loop,
  and `main`'s option/argument handling are translated as executable
  definitions;
* the OpenMP run is modelled sequentially (single static schedule), which
  is the deterministic first-match order of the one-thread run.
-/

set_option maxRecDepth 8000

namespace HashSearch

/-- The eight bits of a byte, most significant first, as raw naturals. -/
def byteBits (b : Nat) : List Nat :=
  [b / 128 % 2, b / 64 % 2, b / 32 % 2, b / 16 % 2, b / 8 % 2, b / 4 % 2, b / 2 % 2, b % 2]

/-- The four bits of a nibble (half-byte), most significant first. -/
def nibBits (n : Nat) : List Nat :=
  [n / 8 % 2, n / 4 % 2, n / 2 % 2, n % 2]

/-- The bit stream of a byte string, big-endian inside every byte. -/
def bitsOfBytes (bs : List Nat) : List Nat := bs.flatMap byteBits

/-- The first `n` bits of a byte string. -/
def firstBits (n : Nat) (bs : List Nat) : List Nat := (bitsOfBytes bs).take n

/-- `get_value` (hash_search.c lines 60–77) on the numeric values of the hex
digits: consecutive digit pairs become one byte (`sscanf("%2x")` stores
`16*d1 + d2`), and a trailing odd digit is shifted into the high nibble of
the final byte (`s[(n-2)/2] <<= 4`).  The `% 256` mirrors the narrowing
store into `unsigned char`. -/
def hexTargetBytes : List Nat → List Nat
  | [] => []
  | [d] => [d * 16 % 256]
  | d1 :: d2 :: rest => ((d1 * 16 + d2) % 256) :: hexTargetBytes rest

/-- The bit-granular comparison at hash_search.c lines 185–187:
`memcmp(result, s, bits/8)` on the whole bytes, and when `bits % 8 != 0`
additionally `(result[bits/8] & 0xf0) == (s[bits/8] & 0xf0)` on the high
nibble of the next byte.  Out-of-range indexing is modelled with `getD`
(the C buffers are always long enough where the claims apply). -/
def matchesTarget (digest s : List Nat) (bits : Nat) : Bool :=
  decide (digest.take (bits / 8) = s.take (bits / 8)) &&
    ((bits % 8 == 0) || ((digest.getD (bits / 8) 0 &&& 240) == (s.getD (bits / 8) 0 &&& 240)))

/-! ### Small decidable facts about bytes and nibbles -/

theorem refold_byteBits : ∀ b < 256, (byteBits b).foldl (fun a x => 2 * a + x) 0 = b := by
  decide

theorem take4_byteBits : ∀ b < 256, (byteBits b).take 4 = nibBits (b / 16) := by
  decide

theorem refold_nibBits : ∀ n < 16, (nibBits n).foldl (fun a x => 2 * a + x) 0 = n := by
  decide

theorem land240_eq (b : Nat) (hb : b < 256) : b &&& 240 = b / 16 * 16 := by
  revert b hb
  decide

theorem byteBits_inj {a b : Nat} (ha : a < 256) (hb : b < 256)
    (h : byteBits a = byteBits b) : a = b := by
  have := refold_byteBits a ha
  rw [h, refold_byteBits b hb] at this
  exact this.symm

theorem nibBits_inj {a b : Nat} (ha : a < 16) (hb : b < 16)
    (h : nibBits a = nibBits b) : a = b := by
  have := refold_nibBits a ha
  rw [h, refold_nibBits b hb] at this
  exact this.symm

theorem byteBits_length (b : Nat) : (byteBits b).length = 8 := rfl

theorem bitsOfBytes_nil : bitsOfBytes [] = [] := rfl

theorem bitsOfBytes_cons (b : Nat) (bs : List Nat) :
    bitsOfBytes (b :: bs) = byteBits b ++ bitsOfBytes bs := rfl

theorem bitsOfBytes_append (xs ys : List Nat) :
    bitsOfBytes (xs ++ ys) = bitsOfBytes xs ++ bitsOfBytes ys := by
  simp [bitsOfBytes]

theorem bitsOfBytes_length (bs : List Nat) : (bitsOfBytes bs).length = 8 * bs.length := by
  induction bs with
  | nil => rfl
  | cons b bs ih =>
      rw [bitsOfBytes_cons, List.length_append, byteBits_length, ih, List.length_cons]
      ring

theorem bitsOfBytes_inj : ∀ (xs ys : List Nat), (∀ x ∈ xs, x < 256) → (∀ y ∈ ys, y < 256) →
    xs.length = ys.length → bitsOfBytes xs = bitsOfBytes ys → xs = ys
  | [], [], _, _, _, _ => rfl
  | [], _ :: _, _, _, hl, _ => by simp at hl
  | _ :: _, [], _, _, hl, _ => by simp at hl
  | x :: xs, y :: ys, hx, hy, hl, he => by
      rw [bitsOfBytes_cons, bitsOfBytes_cons] at he
      obtain ⟨h1, h2⟩ := List.append_inj he (by rw [byteBits_length, byteBits_length])
      have hxy : x = y :=
        byteBits_inj (hx x (by simp)) (hy y (by simp)) h1
      have hrec : xs = ys :=
        bitsOfBytes_inj xs ys (fun a ha => hx a (by simp [ha])) (fun a ha => hy a (by simp [ha]))
          (by simpa using hl) h2
      rw [hxy, hrec]

/-- Taking `length A + k` elements of `A ++ B` keeps all of `A`. -/
theorem take_append_left {α : Type} (A B : List α) (k : Nat) :
    (A ++ B).take (A.length + k) = A ++ B.take k := by
  induction A with
  | nil => simp
  | cons a A ih => simpa [List.take, Nat.succ_add] using ih

/-- Taking at most `length A` elements of `A ++ B` only looks at `A`. -/
theorem take_append_le {α : Type} (A B : List α) (k : Nat) (h : k ≤ A.length) :
    (A ++ B).take k = A.take k := by
  induction A generalizing k with
  | nil =>
      have hk : k = 0 := by simpa using h
      simp [hk]
  | cons a A ih =>
      cases k with
      | zero => simp
      | succ k => simpa [List.take] using ih k (by simpa using h)

/-- Bit streams of equally long byte strings with in-range entries are equal
iff the byte strings are (restricted to the compared initial segment). -/
theorem bitsOfBytes_take_inj {a b : List Nat} {q : Nat}
    (ha : ∀ x ∈ a, x < 256) (hb : ∀ x ∈ b, x < 256)
    (hqa : q ≤ a.length) (hqb : q ≤ b.length) :
    bitsOfBytes (a.take q) = bitsOfBytes (b.take q) ↔ a.take q = b.take q := by
  constructor
  · intro h
    exact bitsOfBytes_inj _ _ (fun x hx => ha x (List.mem_of_mem_take hx))
      (fun x hx => hb x (List.mem_of_mem_take hx))
      (by rw [List.length_take, List.length_take]; omega) h
  · intro h
    rw [h]

/-- The comparison coded at hash_search.c lines 185–187 holds exactly when
the first `bits` bits of the digest agree with the first `bits` bits of the
stored target bytes, provided `bits` is a whole number of nibbles (it is
always `4 * (number of hex digits)`) and both buffers cover `bits` bits. -/
theorem matchesTarget_iff_firstBits (a b : List Nat) (bits : Nat)
    (ha : ∀ x ∈ a, x < 256) (hb : ∀ x ∈ b, x < 256)
    (hr : bits % 8 = 0 ∨ bits % 8 = 4)
    (hla : bits ≤ 8 * a.length) (hlb : bits ≤ 8 * b.length) :
    matchesTarget a b bits = true ↔ firstBits bits a = firstBits bits b := by
  have hqa : bits / 8 ≤ a.length := by omega
  have hqb : bits / 8 ≤ b.length := by omega
  have decomp : ∀ (l : List Nat), bits ≤ 8 * l.length →
      firstBits bits l = bitsOfBytes (l.take (bits / 8)) ++
        (bitsOfBytes (l.drop (bits / 8))).take (bits % 8) := by
    intro l hl
    have hlen : (bitsOfBytes (l.take (bits / 8))).length = 8 * (bits / 8) := by
      rw [bitsOfBytes_length, List.length_take]
      omega
    have h1 : firstBits bits l =
        (bitsOfBytes (l.take (bits / 8)) ++ bitsOfBytes (l.drop (bits / 8))).take bits := by
      rw [← bitsOfBytes_append, List.take_append_drop]
      rfl
    have h2 := take_append_left (bitsOfBytes (l.take (bits / 8)))
      (bitsOfBytes (l.drop (bits / 8))) (bits % 8)
    rw [hlen] at h2
    have hb8 : 8 * (bits / 8) + bits % 8 = bits := by omega
    rw [hb8] at h2
    rw [h1, h2]
  have hwhole := bitsOfBytes_take_inj ha hb hqa hqb
  rcases hr with hr0 | hr4
  · rw [decomp a hla, decomp b hlb, hr0]
    simp only [List.take_zero, List.append_nil]
    rw [hwhole]
    simp [matchesTarget, hr0]
  · have hqa' : bits / 8 < a.length := by omega
    have hqb' : bits / 8 < b.length := by omega
    have haq : a[bits / 8] < 256 := ha _ (List.getElem_mem hqa')
    have hbq : b[bits / 8] < 256 := hb _ (List.getElem_mem hqb')
    have hdropa : (bitsOfBytes (a.drop (bits / 8))).take (bits % 8) =
        nibBits (a[bits / 8] / 16) := by
      rw [List.drop_eq_getElem_cons hqa', bitsOfBytes_cons, hr4,
        take_append_le _ _ 4 (by rw [byteBits_length]; omega)]
      exact take4_byteBits _ haq
    have hdropb : (bitsOfBytes (b.drop (bits / 8))).take (bits % 8) =
        nibBits (b[bits / 8] / 16) := by
      rw [List.drop_eq_getElem_cons hqb', bitsOfBytes_cons, hr4,
        take_append_le _ _ 4 (by rw [byteBits_length]; omega)]
      exact take4_byteBits _ hbq
    rw [decomp a hla, decomp b hlb, hdropa, hdropb]
    have happ : bitsOfBytes (a.take (bits / 8)) ++ nibBits (a[bits / 8] / 16) =
        bitsOfBytes (b.take (bits / 8)) ++ nibBits (b[bits / 8] / 16) ↔
        (bitsOfBytes (a.take (bits / 8)) = bitsOfBytes (b.take (bits / 8)) ∧
          nibBits (a[bits / 8] / 16) = nibBits (b[bits / 8] / 16)) := by

      constructor
      · intro h
        refine List.append_inj h ?_
        rw [bitsOfBytes_length, bitsOfBytes_length, List.length_take, List.length_take]
        omega
      · rintro ⟨h1, h2⟩
        rw [h1, h2]
    rw [happ, hwhole]
    have hnibiff : nibBits (a[bits / 8] / 16) = nibBits (b[bits / 8] / 16) ↔
        a[bits / 8] &&& 240 = b[bits / 8] &&& 240 := by
      rw [land240_eq _ haq, land240_eq _ hbq]
      constructor
      · intro h
        have := nibBits_inj (by omega) (by omega) h
        omega
      · intro h
        have h16 : a[bits / 8] / 16 = b[bits / 8] / 16 := by omega
        rw [h16]
    rw [hnibiff]
    simp [matchesTarget, hr4, List.getElem?_eq_getElem hqa', List.getElem?_eq_getElem hqb']

theorem byteBits_nib_pair : ∀ d1 < 16, ∀ d2 < 16,
    byteBits (d1 * 16 + d2) = nibBits d1 ++ nibBits d2 := by
  decide

theorem hexTargetBytes_lt : ∀ (ds : List Nat), ∀ x ∈ hexTargetBytes ds, x < 256
  | [] => by simp [hexTargetBytes]
  | [d] => by
      intro x hx
      simp only [hexTargetBytes, List.mem_singleton] at hx
      omega
  | d1 :: d2 :: rest => by
      intro x hx
      simp only [hexTargetBytes] at hx
      rcases List.mem_cons.mp hx with h | h
      · omega
      · exact hexTargetBytes_lt rest x h

theorem hexTargetBytes_length : ∀ (ds : List Nat),
    (hexTargetBytes ds).length = (ds.length + 1) / 2
  | [] => rfl
  | [_] => by simp [hexTargetBytes]
  | d1 :: d2 :: rest => by
      simp only [hexTargetBytes, List.length_cons, hexTargetBytes_length rest]
      omega

/-- The first `4 * L` bits stored by `get_value` for `L` hex digits are the
digits' nibbles in order: the parsed target's leading bits are exactly the
hex digits the caller gave. -/
theorem firstBits_hexTarget : ∀ (ds : List Nat), (∀ d ∈ ds, d < 16) →
    firstBits (4 * ds.length) (hexTargetBytes ds) = ds.flatMap nibBits
  | [], _ => rfl
  | [d], h => by
      have hd : d < 16 := h d (by simp)
      have hx : d * 16 % 256 = d * 16 := Nat.mod_eq_of_lt (by omega)
      have h4 : (byteBits (d * 16)).take 4 = nibBits (d * 16 / 16) :=
        take4_byteBits _ (by omega)
      have h16 : d * 16 / 16 = d := by omega
      rw [h16] at h4
      simp [hexTargetBytes, firstBits, bitsOfBytes, hx, h4]
  | d1 :: d2 :: rest, h => by
      have h1 : d1 < 16 := h d1 (by simp)
      have h2 : d2 < 16 := h d2 (by simp)
      have hb : (d1 * 16 + d2) % 256 = d1 * 16 + d2 := Nat.mod_eq_of_lt (by omega)
      have hpair : byteBits (d1 * 16 + d2) = nibBits d1 ++ nibBits d2 :=
        byteBits_nib_pair d1 h1 d2 h2
      have ih := firstBits_hexTarget rest (fun d hd => h d (by simp [hd]))
      simp only [firstBits] at ih
      have hsplit := take_append_left (byteBits (d1 * 16 + d2))
        (bitsOfBytes (hexTargetBytes rest)) (4 * rest.length)
      rw [byteBits_length] at hsplit
      have lhs1 : firstBits (4 * (d1 :: d2 :: rest).length) (hexTargetBytes (d1 :: d2 :: rest)) =
          (byteBits (d1 * 16 + d2) ++ bitsOfBytes (hexTargetBytes rest)).take
            (8 + 4 * rest.length) := by
        simp only [firstBits, hexTargetBytes, bitsOfBytes_cons, List.length_cons, hb]
        congr 1
        omega
      rw [lhs1, hsplit, hpair, ih]
      simp [List.append_assoc]

/-- Hex digit classification used by `sscanf("%2x")`, on character codes. -/
def isHexDig (c : Char) : Bool :=
  decide ((48 ≤ c.toNat ∧ c.toNat ≤ 57) ∨ (97 ≤ c.toNat ∧ c.toNat ≤ 102) ∨
    (65 ≤ c.toNat ∧ c.toNat ≤ 70))

/-- Value of one hex digit character, as `sscanf`'s `%x` conversion computes
it.  For a character that is not a hex digit, `%x` performs no conversion and
leaves the output variable untouched (uninitialized in `get_value`); that
unspecified value is modelled as `0` here and no claim depends on it. -/
def hexDigVal (c : Char) : Nat :=
  if 48 ≤ c.toNat ∧ c.toNat ≤ 57 then c.toNat - 48
  else if 97 ≤ c.toNat ∧ c.toNat ≤ 102 then c.toNat - 87
  else if 65 ≤ c.toNat ∧ c.toNat ≤ 70 then c.toNat - 55
  else 0

theorem hexDigVal_lt (c : Char) : hexDigVal c < 16 := by
  unfold hexDigVal
  split
  · omega
  · split
    · omega
    · split
      · omega
      · omega

/-- The stored target bytes for the hex-prefix argument `hs`, as `get_value`
computes them into `s` (hash_search.c line 130). -/
def parseTarget (hs : String) : List Nat := hexTargetBytes (hs.data.map hexDigVal)

/-! ### Candidate encoding: `snprintf(data, 21, "%lli", new_bytes)` -/

/-- Fuel-driven big-endian decimal digits; `digitsBEAux n n` is total because
`n / 10` decreases. -/
def digitsBEAux : Nat → Nat → List Nat
  | 0, _ => []
  | fuel + 1, n => if n = 0 then [] else digitsBEAux fuel (n / 10) ++ [n % 10]

/-- Big-endian decimal digits of `n` (empty for `0`). -/
def digitsBE (n : Nat) : List Nat := digitsBEAux n n

theorem digitsBEAux_eq : ∀ (fuel n : Nat), n ≤ fuel →
    digitsBEAux fuel n = (Nat.digits 10 n).reverse
  | 0, n, h => by
      have hn : n = 0 := by omega
      simp [hn, digitsBEAux]
  | fuel + 1, n, h => by
      by_cases hn : n = 0
      · simp [hn, digitsBEAux]
      · have hrec := digitsBEAux_eq fuel (n / 10) (by omega)
        simp only [digitsBEAux, if_neg hn]
        rw [hrec, Nat.digits_def' (by norm_num : (1 : Nat) < 10) (Nat.pos_of_ne_zero hn)]
        simp

theorem digitsBE_eq (n : Nat) : digitsBE n = (Nat.digits 10 n).reverse :=
  digitsBEAux_eq n n le_rfl

/-- Decimal text of a nonnegative value, as `printf` renders it ("0" for 0,
otherwise the digits with no leading zero). -/
def decChars (n : Nat) : List Char :=
  if n = 0 then [Char.ofNat 48] else (digitsBE n).map Nat.digitChar

/-- The signed 64-bit reinterpretation that `%lli` applies to the unsigned
counter `new_bytes` (two's complement). -/
def toSigned64 (c : Nat) : Int :=
  if c < 2 ^ 63 then (c : Int) else (c : Int) - 2 ^ 64

/-- Text produced by `snprintf(data, LONGLONGSTR, "%lli", new_bytes)` for a
64-bit counter: the signed value's decimal rendering, minus sign first for
negative values.  The 21-byte buffer is never exceeded (proved below), so no
truncation occurs and the returned `datalen` is the full length. -/
def sprintfLLI (c : Nat) : List Char :=
  if toSigned64 c < 0 then Char.ofNat 45 :: decChars (toSigned64 c).natAbs
  else decChars (toSigned64 c).toNat

/-- The candidate bytes hashed and emitted for counter `c`: the character
codes of the `%lli` text. -/
def asciiBytes (c : Nat) : List Nat := (sprintfLLI c).map Char.toNat

/-- Canonical base-10 reading of a digit text (the inverse direction of the
round-trip property). -/
def decodeDec (cs : List Char) : Nat :=
  cs.foldl (fun a c => a * 10 + (c.toNat - 48)) 0

theorem digitChar_toNat : ∀ d < 10, (Nat.digitChar d).toNat = 48 + d := by
  decide

theorem digitChar_ne_zero_char : ∀ d < 10, d ≠ 0 → Nat.digitChar d ≠ Char.ofNat 48 := by
  decide

theorem foldr_ofDigits : ∀ (L : List Nat), (∀ d ∈ L, (Nat.digitChar d).toNat - 48 = d) →
    L.foldr (fun d a => a * 10 + ((Nat.digitChar d).toNat - 48)) 0 = Nat.ofDigits 10 L := by
  intro L
  induction L with
  | nil =>
      intro _
      simp [Nat.ofDigits_nil]
  | cons d L ih =>
      intro hL
      rw [List.foldr_cons, ih (fun x hx => hL x (by simp [hx])), hL d (by simp),
        Nat.ofDigits_cons]
      ring

/-- Decoding the decimal text of `n` recovers `n`. -/
theorem decodeDec_decChars (n : Nat) : decodeDec (decChars n) = n := by
  by_cases hn : n = 0
  · subst hn
    decide
  · rw [decChars, if_neg hn, digitsBE_eq, decodeDec, List.foldl_map, List.foldl_reverse]
    have hmem : ∀ d ∈ Nat.digits 10 n, (Nat.digitChar d).toNat - 48 = d := by
      intro d hd
      have hlt : d < 10 := Nat.digits_lt_base (by norm_num) hd
      rw [digitChar_toNat d hlt]
      omega
    rw [foldr_ofDigits (Nat.digits 10 n) hmem, Nat.ofDigits_digits]

theorem decChars_length_le (n k : Nat) (h : n < 10 ^ k) (hk : 1 ≤ k) :
    (decChars n).length ≤ k := by
  by_cases hn : n = 0
  · rw [decChars, if_pos hn]
    simpa using hk
  · rw [decChars, if_neg hn, List.length_map, digitsBE_eq, List.length_reverse,
      Nat.digits_len 10 n (by norm_num) hn]
    have := Nat.log_lt_of_lt_pow hn h
    omega

theorem decChars_head_ne_zero (n : Nat) (hn : n ≠ 0) :
    (decChars n).head? ≠ some (Char.ofNat 48) := by
  rw [decChars, if_neg hn, digitsBE_eq, List.head?_map, List.head?_reverse]
  have hne : Nat.digits 10 n ≠ [] := Nat.digits_ne_nil_iff_ne_zero.mpr hn
  rw [List.getLast?_eq_getLast _ hne]
  have hlast := Nat.getLast_digit_ne_zero 10 hn
  have hmem : (Nat.digits 10 n).getLast hne ∈ Nat.digits 10 n := List.getLast_mem hne
  have hlt : (Nat.digits 10 n).getLast hne < 10 := Nat.digits_lt_base (by norm_num) hmem
  intro hcontra
  have heq : Nat.digitChar ((Nat.digits 10 n).getLast hne) = Char.ofNat 48 := by
    simpa using hcontra
  exact digitChar_ne_zero_char _ hlt hlast heq

theorem sprintfLLI_of_lt (c : Nat) (h : c < 2 ^ 63) : sprintfLLI c = decChars c := by
  have hts : toSigned64 c = (c : Int) := by rw [toSigned64, if_pos h]
  have h0 : ¬ toSigned64 c < 0 := by
    rw [hts]
    simp
  rw [sprintfLLI, if_neg h0, hts]
  simp

theorem sprintfLLI_of_ge (c : Nat) (h1 : 2 ^ 63 ≤ c) (h2 : c < 2 ^ 64) :
    sprintfLLI c = Char.ofNat 45 :: decChars (2 ^ 64 - c) := by
  have hns : ¬ c < 2 ^ 63 := by omega
  have hts : toSigned64 c = (c : Int) - 2 ^ 64 := by rw [toSigned64, if_neg hns]
  have hneg : toSigned64 c < 0 := by
    rw [hts]
    have hcast : (c : Int) < 2 ^ 64 := by exact_mod_cast h2
    omega
  rw [sprintfLLI, if_pos hneg, hts]
  have habs : ((c : Int) - 2 ^ 64).natAbs = 2 ^ 64 - c := by
    omega
  rw [habs]

/-! ### The search loop (hash_search.c lines 179–205, sequential order) -/

/-- One `for` iteration chain: try counters `c, c+1, …` while fuel lasts,
returning the first counter accepted by `f`. -/
def searchLoop (f : Nat → Bool) : Nat → Nat → Option Nat
  | _, 0 => none
  | c, fuel + 1 => if f c then some c else searchLoop f (c + 1) fuel

/-- The search over the half-open counter range `[0, maxS)`. -/
def searchFirst (f : Nat → Bool) (maxS : Nat) : Option Nat := searchLoop f 0 maxS

theorem searchLoop_none_iff (f : Nat → Bool) :
    ∀ (fuel c : Nat), (searchLoop f c fuel = none ↔ ∀ i, c ≤ i → i < c + fuel → f i = false) := by
  intro fuel
  induction fuel with
  | zero =>
      intro c
      constructor
      · intro _ i h1 h2
        omega
      · intro _
        rfl
  | succ fuel ih =>
      intro c
      simp only [searchLoop]
      by_cases hc : f c = true
      · rw [if_pos hc]
        constructor
        · intro h
          cases h
        · intro h
          have hfc := h c (by omega) (by omega)
          rw [hc] at hfc
          cases hfc
      · have hcf : f c = false := by simpa using hc
        rw [if_neg hc, ih (c + 1)]
        constructor
        · intro h i h1 h2
          rcases Nat.eq_or_lt_of_le h1 with heq | hlt
          · rw [← heq]
            exact hcf
          · exact h i (by omega) (by omega)
        · intro h i h1 h2
          exact h i (by omega) (by omega)

theorem searchFirst_none_iff (f : Nat → Bool) (maxS : Nat) :
    searchFirst f maxS = none ↔ ∀ c < maxS, f c = false := by
  rw [searchFirst, searchLoop_none_iff]
  constructor
  · intro h c hc
    exact h c (by omega) (by omega)
  · intro h i _ h2
    exact h i (by omega)

theorem searchLoop_some (f : Nat → Bool) :
    ∀ (fuel c d : Nat), searchLoop f c fuel = some d → f d = true := by
  intro fuel
  induction fuel with
  | zero =>
      intro c d h
      simp [searchLoop] at h
  | succ fuel ih =>
      intro c d h
      simp only [searchLoop] at h
      by_cases hc : f c = true
      · rw [if_pos hc] at h
        have hcd : c = d := by simpa using h
        rw [← hcd]
        exact hc
      · rw [if_neg hc] at h
        exact ih (c + 1) d h

theorem searchFirst_some (f : Nat → Bool) (maxS d : Nat)
    (h : searchFirst f maxS = some d) : f d = true :=
  searchLoop_some f maxS 0 d h

/-- The per-candidate test of the search loop: clone the base context,
append the `%lli` encoding of the counter, finalize, and compare against the
stored target (hash_search.c lines 180–187). -/
def isMatch (H : List Nat → List Nat) (input s : List Nat) (bits c : Nat) : Bool :=
  matchesTarget (H (input ++ asciiBytes c)) s bits

/-! ### Command line and run model (`main`, hash_search.c lines 79–219) -/

structure Config where
  maxSearch : Nat
  mdLen : Nat
  makeMatching : Bool
deriving DecidableEq

/-- Usage text printed to stderr by `usage()` (first line; the option
explanation lines are elided, they carry no claim-relevant content). -/
def usageText : String :=
  "usage: hash_search [-b <bits>] [-d <digest>] [-l] hexdigits"

/-- Initial values in `main` (lines 84–89): `max_search = 1 << 24`,
`md = EVP_md5()` (16-byte output, a property of the external algorithm fixed
by the md5 default), matching-file mode on. -/
def initialConfig : Config := { maxSearch := 1 <<< 24, mdLen := 16, makeMatching := true }

/-- One parsed `getopt` option with its argument: `-b` carries
`atol(optarg)`, `-d` carries the digest name, `-l` carries nothing. -/
inductive CliArg where
  | optB (v : Int)
  | optD (name : String)
  | optL
deriving DecidableEq

/-- An `exit()` taken before any input is read: exit code plus the text
printed to stdout and to stderr up to that point. -/
structure ErrorExit where
  code : Nat
  outMsgs : List String
  errMsgs : List String
deriving DecidableEq

/-- The `getopt` loop of `main` (lines 94–122): `-b` validates the bit count
(1..63 gives `2^bits - 1`, 64 gives `2^64 - 1`, anything else prints an
error and the usage to stderr and exits 1); `-d` looks the name up in the
registry (OpenSSL `EVP_get_digestbyname`, abstract here) — on failure the
error line goes to standard output (`printf`, line 111) while the usage goes
to stderr; `-l` clears matching-file mode. -/
def procArgs (reg : String → Option Nat) :
    List CliArg → Config → List String → List String →
      Except ErrorExit (Config × List String × List String)
  | [], cfg, out, err => Except.ok (cfg, out, err)
  | CliArg.optB v :: rest, cfg, out, err =>
      if 1 ≤ v ∧ v ≤ 63 then
        procArgs reg rest { cfg with maxSearch := 2 ^ v.toNat - 1 } out err
      else if v = 64 then
        procArgs reg rest { cfg with maxSearch := 2 ^ 64 - 1 } out err
      else
        Except.error
          { code := 1
            outMsgs := out
            errMsgs := err ++ ["invalid number of bits", usageText] }
  | CliArg.optD name :: rest, cfg, out, err =>
      match reg name with
      | some len => procArgs reg rest { cfg with mdLen := len } out err
      | none =>
          Except.error
            { code := 1
              outMsgs := out ++ ["Unknown message digest " ++ name]
              errMsgs := err ++ [usageText] }
  | CliArg.optL :: rest, cfg, out, err =>
      procArgs reg rest { cfg with makeMatching := false } out err

/-- Option processing followed by the positional-argument count check
`argc - optind != 1` (line 124): exactly one hex argument must remain; the
argument's content is not inspected before the search. -/
def configPhase (reg : String → Option Nat) (opts : List CliArg) (pos : List String) :
    Except ErrorExit (Config × String × List String × List String) :=
  match procArgs reg opts initialConfig [] [] with
  | Except.error e => Except.error e
  | Except.ok (cfg, out, err) =>
      match pos with
      | [h] => Except.ok (cfg, h, out, err)
      | _ =>
          Except.error
            { code := 1
              outMsgs := out
              errMsgs := err ++ [usageText] }

/-- `print_result`: each byte as two lowercase hex characters (`"%02x"`). -/
def hexOut (bs : List Nat) : List Char :=
  bs.flatMap (fun b => [Nat.digitChar (b / 16), Nat.digitChar (b % 16)])

/-- One listing-mode line (lines 200–201): hex digest, the tag `ascii`, and
the counter rendered with the same `%lli` conversion used for hashing. -/
def listingLine (digest : List Nat) (c : Nat) : List Char :=
  hexOut digest ++ " ascii ".data ++ sprintfLLI c

/-- Observable outcome of one run: exit code, bytes written to fd 1 with
`write`, text printed to stdout, the claim-relevant stderr diagnostics
(configuration errors, usage, `found match!` / `no match found.`; the
progress and base-digest announcements are elided), and how many input
bytes were consumed. -/
structure RunResult where
  exit : Nat
  stdoutBytes : List Nat
  stdoutMsgs : List String
  stderrMsgs : List String
  inputRead : Nat
deriving DecidableEq

/-- Sequential model of a whole run of `main`: configuration phase (before
any read from stdin), then reading/echoing the input, then the search.  In
matching mode the input is echoed to stdout while read (line 144) and the
first qualifying candidate's bytes follow it, with `exit(0)`; exhaustion
leaves only the echo and returns `make_matching = 1`. Listing mode prints
one line per qualifying counter and returns 0. -/
def runModel (reg : String → Option Nat) (opts : List CliArg) (pos : List String)
    (H : List Nat → List Nat) (input : List Nat) : RunResult :=
  match configPhase reg opts pos with
  | Except.error e =>
      { exit := e.code, stdoutBytes := [], stdoutMsgs := e.outMsgs,
        stderrMsgs := e.errMsgs, inputRead := 0 }
  | Except.ok (cfg, hs, out, err) =>
      if cfg.makeMatching then
        match searchFirst (isMatch H input (parseTarget hs) (4 * hs.length)) cfg.maxSearch with
        | some c =>
            { exit := 0, stdoutBytes := input ++ asciiBytes c, stdoutMsgs := out,
              stderrMsgs := err ++ ["found match!"], inputRead := input.length }
        | none =>
            { exit := 1, stdoutBytes := input, stdoutMsgs := out,
              stderrMsgs := err ++ ["no match found."], inputRead := input.length }
      else
        { exit := 0, stdoutBytes := [],
          stdoutMsgs := out ++ (((List.range cfg.maxSearch).filter
            (isMatch H input (parseTarget hs) (4 * hs.length))).map
              (fun c => String.mk (listingLine (H (input ++ asciiBytes c)) c))),
          stderrMsgs := err, inputRead := input.length }

/-- Registry with no known digest names. -/
def regNone : String → Option Nat := fun _ => none

/-- Registry knowing only md5, output length 16 bytes. -/
def regMd5 : String → Option Nat := fun n => if n = "md5" then some 16 else none

/-- Digest stub: constant all-zero 16-byte digest (instantiation helper). -/
def Hzero : List Nat → List Nat := fun _ => List.replicate 16 0

/-- Digest stub: constant all-255 16-byte digest (instantiation helper). -/
def Hff : List Nat → List Nat := fun _ => List.replicate 16 255

/-! ### Claims -/

/-- C1: for every parsed target (bit length `4 × hex digits`) and every
digest, the matcher of hash_search.c lines 185–187 — `bits/8` whole bytes by
`memcmp`, plus the high nibble of digest byte `bits/8` against the stored
nibble mask when `bits % 8 ≠ 0` — returns true iff the first `bit_length`
bits of the digest equal the target's stored bits. -/
theorem C1_matcher_iff (ds digest : List Nat)
    (_hds : ∀ d ∈ ds, d < 16) (hdig : ∀ b ∈ digest, b < 256)
    (hlen : 4 * ds.length ≤ 8 * digest.length) :
    (matchesTarget digest (hexTargetBytes ds) (4 * ds.length) = true ↔
      firstBits (4 * ds.length) digest = firstBits (4 * ds.length) (hexTargetBytes ds)) := by
  apply matchesTarget_iff_firstBits
  · exact hdig
  · exact fun x hx => hexTargetBytes_lt ds x hx
  · omega
  · exact hlen
  · rw [hexTargetBytes_length]
    omega

/-- C1 witness: a concrete odd-length target (`a3f`) and a matching digest. -/
theorem C1_matcher_iff_witness :
    (matchesTarget [163, 247] (hexTargetBytes [10, 3, 15]) (4 * [10, 3, 15].length) = true ↔
      firstBits (4 * [10, 3, 15].length) [163, 247] =
        firstBits (4 * [10, 3, 15].length) (hexTargetBytes [10, 3, 15])) :=
  C1_matcher_iff [10, 3, 15] [163, 247] (by decide) (by decide) (by decide)

/-- C2: in matching mode, when the search returns a qualifying candidate
`c`, the run has the echoed input followed by the candidate's encoded bytes
on standard output and exit code 0, and the digest of
`input ++ encoding(c)` starts with the given hex digits' bits. -/
theorem C2_match_output (reg : String → Option Nat) (opts : List CliArg) (hs : String)
    (H : List Nat → List Nat) (input : List Nat) (cfg : Config)
    (out err : List String) (c : Nat)
    (hcfg : configPhase reg opts [hs] = Except.ok (cfg, hs, out, err))
    (hmode : cfg.makeMatching = true)
    (hH : ∀ l, ∀ b ∈ H l, b < 256)
    (hHlen : ∀ l : List Nat, 4 * hs.length ≤ 8 * (H l).length)
    (hfound : searchFirst (isMatch H input (parseTarget hs) (4 * hs.length)) cfg.maxSearch
      = some c) :
    (runModel reg opts [hs] H input).exit = 0 ∧
    (runModel reg opts [hs] H input).stdoutBytes = input ++ asciiBytes c ∧
    firstBits (4 * hs.length) (H (input ++ asciiBytes c)) =
      (hs.data.map hexDigVal).flatMap nibBits := by
  have hrun : runModel reg opts [hs] H input =
      { exit := 0, stdoutBytes := input ++ asciiBytes c, stdoutMsgs := out,
        stderrMsgs := err ++ ["found match!"], inputRead := input.length } := by
    unfold runModel
    rw [hcfg]
    simp [hmode, hfound]
  have hm : isMatch H input (parseTarget hs) (4 * hs.length) c = true :=
    searchFirst_some _ _ _ hfound
  rw [isMatch] at hm
  have hds : ∀ d ∈ hs.data.map hexDigVal, d < 16 := by
    intro d hd
    rcases List.mem_map.mp hd with ⟨ch, _, rfl⟩
    exact hexDigVal_lt ch
  have hlendata : hs.data.length = hs.length := rfl
  have hlb : 4 * hs.length ≤ 8 * (parseTarget hs).length := by
    rw [parseTarget, hexTargetBytes_length, List.length_map, hlendata]
    omega
  have hiff := matchesTarget_iff_firstBits (H (input ++ asciiBytes c)) (parseTarget hs)
    (4 * hs.length) (hH _) (fun x hx => hexTargetBytes_lt _ x hx) (by omega) (hHlen _) hlb
  refine ⟨by rw [hrun], by rw [hrun], ?_⟩
  have hfb := hiff.mp hm
  rw [hfb, parseTarget]
  have hnib := firstBits_hexTarget (hs.data.map hexDigVal) hds
  rw [List.length_map, hlendata] at hnib
  exact hnib

/-- C2 witness: empty input, target `00`, all-zero digest stub; candidate 0
is found at once. -/
theorem C2_match_output_witness :
    (runModel regMd5 [] ["00"] Hzero []).exit = 0 ∧
    (runModel regMd5 [] ["00"] Hzero []).stdoutBytes = [] ++ asciiBytes 0 ∧
    firstBits (4 * "00".length) (Hzero ([] ++ asciiBytes 0)) =
      ("00".data.map hexDigVal).flatMap nibBits :=
  C2_match_output regMd5 [] "00" Hzero [] initialConfig [] [] 0 rfl rfl
    (fun l b hb => by simp [Hzero] at hb; omega)
    (fun l => by show (8:Nat) ≤ 128; norm_num)
    (by decide)

/-- C3 fails as stated: an exhausted matching run with nonempty input still
carries the echoed input bytes on standard output (here: exit 1 and the
`no match found.` diagnostic, yet stdout holds one byte). -/
theorem C3_stdout_nonempty_cex :
    (runModel regNone [CliArg.optB 1] ["ff"] Hzero [1]).exit = 1 ∧
    (runModel regNone [CliArg.optB 1] ["ff"] Hzero [1]).stderrMsgs = ["no match found."] ∧
    (runModel regNone [CliArg.optB 1] ["ff"] Hzero [1]).stdoutBytes ≠ [] := by
  decide

/-- C3 (amended): on exhaustion in matching mode the run adds nothing to
standard output beyond the verbatim echo of the input, prints the
`no match found.` diagnostic to stderr, and exits with code 1. -/
theorem C3_exhausted_run (reg : String → Option Nat) (opts : List CliArg) (hs : String)
    (H : List Nat → List Nat) (input : List Nat) (cfg : Config) (out err : List String)
    (hcfg : configPhase reg opts [hs] = Except.ok (cfg, hs, out, err))
    (hmode : cfg.makeMatching = true)
    (hnone : searchFirst (isMatch H input (parseTarget hs) (4 * hs.length)) cfg.maxSearch
      = none) :
    runModel reg opts [hs] H input =
      { exit := 1, stdoutBytes := input, stdoutMsgs := out,
        stderrMsgs := err ++ ["no match found."], inputRead := input.length } := by
  unfold runModel
  rw [hcfg]
  simp [hmode, hnone]

/-- C3 witness: target `ff` with the all-zero digest stub and `-b 1` is
exhausted after the single counter 0. -/
theorem C3_exhausted_run_witness :
    runModel regNone [CliArg.optB 1] ["ff"] Hzero [2] =
      { exit := 1, stdoutBytes := [2], stdoutMsgs := [],
        stderrMsgs := ["no match found."], inputRead := 1 } :=
  C3_exhausted_run regNone [CliArg.optB 1] "ff" Hzero [2]
    { maxSearch := 1, mdLen := 16, makeMatching := true } [] [] rfl rfl (by decide)

/-- C4 fails as stated: without `-b`, `main`'s initializer is `1 << 24`, so
`max_search = 2^24`, not `2^24 - 1`. -/
theorem C4_default_cex :
    configPhase regNone [] ["00"] = Except.ok (initialConfig, "00", [], []) ∧
    initialConfig.maxSearch = 2 ^ 24 ∧
    initialConfig.maxSearch ≠ 2 ^ 24 - 1 :=
  ⟨rfl, by decide, by decide⟩

/-- C4 (amended): when `-b` is absent the bound is `2^24` and the search
enumerates exactly the counters in `[0, 2^24)`. -/
theorem C4_default_range :
    initialConfig.maxSearch = 2 ^ 24 ∧
    (∀ (reg : String → Option Nat) (hs : String),
      configPhase reg [] [hs] = Except.ok (initialConfig, hs, [], [])) ∧
    (∀ f : Nat → Bool, (searchFirst f (2 ^ 24) = none ↔ ∀ c < 2 ^ 24, f c = false)) :=
  ⟨by decide, fun reg hs => rfl, fun f => searchFirst_none_iff f (2 ^ 24)⟩

/-- C5 (code observation at the failing input): with an unknown `-d` name
the error line is printed to standard output (line 111 uses `printf`), only
the usage text reaches stderr, the exit code is 1, and no input is read. -/
theorem C5_unknown_digest_stdout :
    runModel regNone [CliArg.optD "nosuch"] ["00"] Hzero [7] =
      { exit := 1, stdoutBytes := [], stdoutMsgs := ["Unknown message digest nosuch"],
        stderrMsgs := [usageText], inputRead := 0 } := by
  decide

/-- C6 fails for the malformed-argument case: `zz` contains no hex digit,
yet configuration succeeds and the run consumes the whole input
(`get_value` never reports an error; `sscanf`'s failed conversions go
unchecked). -/
theorem C6_malformed_cex :
    (∀ ch ∈ "zz".data, isHexDig ch = false) ∧
    configPhase regNone [] ["zz"] = Except.ok (initialConfig, "zz", [], []) ∧
    (runModel regNone [] ["zz"] Hzero [9]).inputRead = 1 := by
  refine ⟨by decide, rfl, by decide⟩

/-- C6 (amended): a missing hex argument (or any positional count other
than one) is rejected with exit code 1 before any input is read; a
malformed hex argument, however, is not detected — any single positional
argument reaches the search and the input is consumed in full. -/
theorem C6_missing_vs_malformed (reg : String → Option Nat) (opts : List CliArg)
    (cfg : Config) (out err : List String) (H : List Nat → List Nat) (input : List Nat)
    (hok : procArgs reg opts initialConfig [] [] = Except.ok (cfg, out, err)) :
    configPhase reg opts [] =
      Except.error { code := 1, outMsgs := out, errMsgs := err ++ [usageText] } ∧
    (runModel reg opts [] H input).exit = 1 ∧
    (runModel reg opts [] H input).inputRead = 0 ∧
    (∀ hs : String, configPhase reg opts [hs] = Except.ok (cfg, hs, out, err)) ∧
    (∀ hs : String, (runModel reg opts [hs] H input).inputRead = input.length) := by
  have hcp : configPhase reg opts [] =
      Except.error { code := 1, outMsgs := out, errMsgs := err ++ [usageText] } := by
    unfold configPhase
    rw [hok]
  have hcph : ∀ hs : String, configPhase reg opts [hs] = Except.ok (cfg, hs, out, err) := by
    intro hs
    unfold configPhase
    rw [hok]
  refine ⟨hcp, ?_, ?_, hcph, ?_⟩
  · unfold runModel
    rw [hcp]
  · unfold runModel
    rw [hcp]
  · intro hs
    unfold runModel
    rw [hcph hs]
    by_cases hm : cfg.makeMatching = true
    · cases hsf : searchFirst (isMatch H input (parseTarget hs) (4 * hs.length)) cfg.maxSearch
      · simp [hm, hsf]
      · simp [hm, hsf]
    · have hmf : cfg.makeMatching = false := by simpa using hm
      simp [hmf]

/-- C6 witness: no positional argument at all is a configuration error with
nothing read from stdin. -/
theorem C6_missing_vs_malformed_witness :
    configPhase regNone [] [] =
      Except.error { code := 1, outMsgs := [], errMsgs := [usageText] } ∧
    (runModel regNone [] [] Hzero [9]).inputRead = 0 :=
  ⟨(C6_missing_vs_malformed regNone [] initialConfig [] [] Hzero [9] rfl).1,
   (C6_missing_vs_malformed regNone [] initialConfig [] [] Hzero [9] rfl).2.2.1⟩

/-- C7: for every counter below `2^63` the `%lli` text is the canonical
decimal rendering of the counter — at most 20 characters, exactly `"0"` for
zero, no leading zero otherwise — and decoding the text recovers the
counter. -/
theorem C7_ascii_roundtrip (c : Nat) (h : c < 2 ^ 63) :
    sprintfLLI c = decChars c ∧
    (sprintfLLI c).length ≤ 20 ∧
    decodeDec (sprintfLLI c) = c ∧
    (c = 0 → sprintfLLI c = [Char.ofNat 48]) ∧
    (c ≠ 0 → (sprintfLLI c).head? ≠ some (Char.ofNat 48)) := by
  have he := sprintfLLI_of_lt c h
  refine ⟨he, ?_, ?_, ?_, ?_⟩
  · rw [he]
    have hlt : c < 10 ^ 20 := lt_trans h (by norm_num)
    exact decChars_length_le c 20 hlt (by norm_num)
  · rw [he]
    exact decodeDec_decChars c
  · intro h0
    rw [he, h0]
    rfl
  · intro h0
    rw [he]
    exact decChars_head_ne_zero c h0

/-- C7 witness at counter 12345. -/
theorem C7_ascii_roundtrip_witness :
    decodeDec (sprintfLLI 12345) = 12345 ∧ (sprintfLLI 12345).length ≤ 20 :=
  ⟨(C7_ascii_roundtrip 12345 (by norm_num)).2.2.1,
   (C7_ascii_roundtrip 12345 (by norm_num)).2.1⟩

/-- A 33-digit hex argument: 33 times the digit `a`. -/
def hex33 : String := String.mk (List.replicate 33 (Char.ofNat 97))

/-- A 17-byte digest buffer agreeing with the parsed `hex33` target. -/
def dAbuf : List Nat := List.replicate 16 170 ++ [160]

/-- Same first 16 bytes as `dAbuf`, different byte 16. -/
def dBbuf : List Nat := List.replicate 16 170 ++ [0]

/-- C8 fails as stated: a 33-hex-digit target (132 bits) with the 16-byte
md5 default passes configuration unchecked and reaches the search, and the
matcher's verdict then depends on digest-buffer byte 16 — one past the
algorithm's output length. -/
theorem C8_overlong_cex :
    configPhase regMd5 [] [hex33] = Except.ok (initialConfig, hex33, [], []) ∧
    4 * hex33.length = 132 ∧
    8 * initialConfig.mdLen = 128 ∧
    dAbuf.take 16 = dBbuf.take 16 ∧
    matchesTarget dAbuf (parseTarget hex33) (4 * hex33.length) = true ∧
    matchesTarget dBbuf (parseTarget hex33) (4 * hex33.length) = false := by
  refine ⟨rfl, by decide, by decide, by decide, by decide, by decide⟩

/-- C8 (amended): the program never validates the target length against the
digest output — every hex argument passes configuration — and the matcher
reads digest-buffer bytes only at indices below `bits/8 + 1`, indices that
exceed the algorithm's output length whenever `4 × digits` exceeds
`8 × output length`. -/
theorem C8_no_bound_and_locality (reg : String → Option Nat) (hs : String)
    (s a b : List Nat) (bits : Nat)
    (hagree : a.take (bits / 8 + 1) = b.take (bits / 8 + 1)) :
    configPhase reg [] [hs] = Except.ok (initialConfig, hs, [], []) ∧
    matchesTarget a s bits = matchesTarget b s bits := by
  refine ⟨rfl, ?_⟩
  have htake : a.take (bits / 8) = b.take (bits / 8) := by
    have hc := congrArg (List.take (bits / 8)) hagree
    rw [List.take_take, List.take_take, min_eq_left (by omega)] at hc
    exact hc
  have hgetD : a.getD (bits / 8) 0 = b.getD (bits / 8) 0 := by
    rw [List.getD_eq_getElem?_getD, List.getD_eq_getElem?_getD]
    have hc := congrArg (fun l : List Nat => l[bits / 8]?) hagree
    simp only [List.getElem?_take] at hc
    rw [if_pos (Nat.lt_succ_self _), if_pos (Nat.lt_succ_self _)] at hc
    rw [hc]
  simp only [matchesTarget, htake, hgetD]

/-- C8 witness: two buffers agreeing on their first two bytes give the same
verdict for an 8-bit target. -/
theorem C8_no_bound_and_locality_witness :
    configPhase regNone [] ["00"] = Except.ok (initialConfig, "00", [], []) ∧
    matchesTarget [1, 2, 3] [0] 8 = matchesTarget [1, 2, 9] [0] 8 :=
  C8_no_bound_and_locality regNone "00" [0] [1, 2, 3] [1, 2, 9] 8 (by decide)

/-- C9: `-b 64` sets `max_search = 2^64 - 1`, which still fits unsigned
64-bit arithmetic; the fuel-indexed search loop is total on the full range,
and when no counter below `2^64 - 1` qualifies, the matching-mode run
reports exhaustion — echo-only stdout, `no match found.` diagnostic, exit
code 1. -/
theorem C9_b64_exhaust (reg : String → Option Nat) (hs : String)
    (H : List Nat → List Nat) (input : List Nat)
    (hnone : ∀ c, c < 2 ^ 64 - 1 →
      isMatch H input (parseTarget hs) (4 * hs.length) c = false) :
    configPhase reg [CliArg.optB 64] [hs] =
      Except.ok ({ maxSearch := 2 ^ 64 - 1, mdLen := 16, makeMatching := true }, hs, [], []) ∧
    2 ^ 64 - 1 < 2 ^ 64 ∧
    runModel reg [CliArg.optB 64] [hs] H input =
      { exit := 1, stdoutBytes := input, stdoutMsgs := [],
        stderrMsgs := ["no match found."], inputRead := input.length } := by
  have hcfg : configPhase reg [CliArg.optB 64] [hs] =
      Except.ok ({ maxSearch := 2 ^ 64 - 1, mdLen := 16, makeMatching := true }, hs, [], []) := by
    rfl
  have hsf : searchFirst (isMatch H input (parseTarget hs) (4 * hs.length)) (2 ^ 64 - 1)
      = none := by
    rw [searchFirst_none_iff]
    exact hnone
  refine ⟨hcfg, by norm_num, ?_⟩
  unfold runModel
  rw [hcfg]
  simp only []
  rw [hsf]
  simp

/-- C9 witness: target `ff` with the all-zero digest stub never matches, so
the `-b 64` run is exhausted. -/
theorem C9_b64_exhaust_witness :
    runModel regNone [CliArg.optB 64] ["ff"] Hzero [5] =
      { exit := 1, stdoutBytes := [5], stdoutMsgs := [],
        stderrMsgs := ["no match found."], inputRead := 1 } :=
  (C9_b64_exhaust regNone "ff" Hzero [5] (fun _ _ => rfl)).2.2

/-- C10 (implicit behaviour): a counter in `[2^63, 2^64 - 1)` is rendered by
`%lli` as its signed two's-complement value — a minus sign followed by the
decimal digits of `2^64 - c` — the text still fits the 21-byte
`LONGLONGSTR` buffer, the hashed and emitted candidate bytes are that
text's character codes, and the listing line shows that same text in its
counter column after the `ascii` tag. -/
theorem C10_signed_encoding (c : Nat) (digest : List Nat)
    (h1 : 2 ^ 63 ≤ c) (h2 : c < 2 ^ 64 - 1) :
    sprintfLLI c = Char.ofNat 45 :: decChars (2 ^ 64 - c) ∧
    (sprintfLLI c).length + 1 ≤ 21 ∧
    asciiBytes c = (Char.ofNat 45 :: decChars (2 ^ 64 - c)).map Char.toNat ∧
    listingLine digest c = hexOut digest ++ " ascii ".data ++ sprintfLLI c := by
  have e1 : (2:Nat) ^ 64 = 18446744073709551616 := by norm_num
  have e2 : (2:Nat) ^ 63 = 9223372036854775808 := by norm_num
  have he := sprintfLLI_of_ge c h1 (by omega)
  refine ⟨he, ?_, by rw [asciiBytes, he], rfl⟩
  rw [he]
  have hle : 2 ^ 64 - c ≤ 2 ^ 63 := by omega
  have hlt : 2 ^ 64 - c < 10 ^ 19 := lt_of_le_of_lt hle (by norm_num)
  have hlen := decChars_length_le (2 ^ 64 - c) 19 hlt (by norm_num)
  simp only [List.length_cons]
  omega

/-- C10 witness at the boundary counter `2^63`. -/
theorem C10_signed_encoding_witness :
    sprintfLLI (2 ^ 63) = Char.ofNat 45 :: decChars (2 ^ 64 - 2 ^ 63) ∧
    (sprintfLLI (2 ^ 63)).length + 1 ≤ 21 :=
  ⟨(C10_signed_encoding (2 ^ 63) [] (le_refl _) (by norm_num)).1,
   (C10_signed_encoding (2 ^ 63) [] (le_refl _) (by norm_num)).2.1⟩

end HashSearch
